import Mathlib

/-!
Verification of the sharded compressed inverted index
(`src/enhanced_indexer.py`): varint codec, delta-compressed postings
lists, bloom filters, index construction and boolean queries.

Bytes are modelled as `Nat` values in `[0, 256)`; byte strings as
`List Nat`.  Python exceptions (reading past the end of a buffer) are
modelled with `Except String`.
-/

/-- Loop body of `varint_encode`: emit 7-bit groups, low first; every
byte except the last carries the continuation bit `0x80`. -/
def varint_encode (n : Nat) : List Nat :=
  let towrite := n &&& 0x7F
  if n >>> 7 = 0 then [towrite]
  else (towrite ||| 0x80) :: varint_encode (n >>> 7)
termination_by n
decreasing_by
  have h7 : n >>> 7 = n / 2 ^ 7 := Nat.shiftRight_eq_div_pow n 7
  have hn : n ≠ 0 := by
    intro h0
    simp [h0] at *
  calc n >>> 7 = n / 2 ^ 7 := h7
    _ < n := Nat.div_lt_self (Nat.pos_of_ne_zero hn) (by norm_num)

/-- The inner `while True` byte-accumulation loop of
`varint_decode_stream`, fused with the outer `while i < L` loop: on a
byte without the continuation bit the current value is emitted and, if
bytes remain, decoding restarts with `shift = val = 0`.  Reading past
the end of the buffer is the Python `IndexError`. -/
def varint_decode_go : List Nat → Nat → Nat → Except String (List Nat)
  | [], _, _ => .error "index out of range"
  | byte :: rest, shift, val =>
    let val2 := val ||| ((byte &&& 0x7F) <<< shift)
    if byte &&& 0x80 = 0 then
      match rest with
      | [] => .ok [val2]
      | _ :: _ =>
        match varint_decode_go rest 0 0 with
        | .ok vs => .ok (val2 :: vs)
        | .error e => .error e
    else varint_decode_go rest (shift + 7) val2

/-- `varint_decode_stream`: decode concatenated varints until the
buffer is exhausted. -/
def varint_decode_stream (b : List Nat) : Except String (List Nat) :=
  match b with
  | [] => .ok []
  | _ :: _ => varint_decode_go b 0 0

/-- The delta loop of `compress_postings` (`prev` starts at 0). -/
def compressFrom (prev : Nat) : List Nat → List Nat
  | [] => []
  | b :: rest => varint_encode (b - prev) ++ compressFrom b rest

/-- `compress_postings`: successive deltas, varint-encoded and
concatenated; empty input yields the empty byte string. -/
def compress_postings (block_numbers : List Nat) : List Nat :=
  if block_numbers.isEmpty then [] else compressFrom 0 block_numbers

/-- The running-sum loop of `decompress_postings`. -/
def decompressFrom (prev : Nat) : List Nat → List Nat
  | [] => []
  | d :: rest => (prev + d) :: decompressFrom (prev + d) rest

/-- `decompress_postings`: decode the varint stream and reconstruct
values by a running sum of deltas. -/
def decompress_postings (b : List Nat) : Except String (List Nat) :=
  (varint_decode_stream b).map (decompressFrom 0)

/-! ### Termination model of `varint_encode` over Python ints

`varint_encode` is written for arbitrary Python integers; on a negative
input `n >>= 7` stabilises at `-1` and the loop never exits.  The fuel
model makes that observable: `n & 0x7F` is `n % 128` (Python `%` on a
positive modulus, i.e. `Int.emod`) and `n >> 7` is the arithmetic shift
(floor division by `2^7`). -/
def varint_encode_fuel : Nat → Int → Option (List Nat)
  | 0, _ => none
  | fuel + 1, n =>
    let towrite := (n % 128).toNat
    if n >>> 7 = 0 then some [towrite]
    else (varint_encode_fuel fuel (n >>> 7)).map (fun l => (towrite ||| 128) :: l)

/-- Successive deltas computed by the loop of `compress_postings`, over
Python ints (the running baseline starts at 0). -/
def compress_deltasFrom (prev : Int) : List Int → List Int
  | [] => []
  | b :: rest => (b - prev) :: compress_deltasFrom b rest

/-- The full delta sequence passed to `varint_encode` by
`compress_postings`. -/
def compress_deltas (blocks : List Int) : List Int :=
  compress_deltasFrom 0 blocks

/-! ### SHA-256 (model of `hashlib.sha256(...).digest()`)

Bytes are `Nat` values; 32-bit words are `Nat` values reduced with
`&&& 0xFFFFFFFF`. -/

/-- Big-endian byte serialization of `v` on `len` bytes (model of
`int.to_bytes(len, "big")` and of `struct.pack(">...")`). -/
def intToBytes : Nat → Nat → List Nat
  | 0, _ => []
  | len + 1, v => intToBytes len (v >>> 8) ++ [v &&& 0xFF]

/-- Big-endian byte deserialization (model of
`int.from_bytes(b, "big")` and of `struct.unpack_from(">Q", ...)`). -/
def intFromBytes (bs : List Nat) : Nat :=
  bs.foldl (fun acc b => acc * 256 + b) 0

def rotr32 (x n : Nat) : Nat :=
  ((x >>> n) ||| (x <<< (32 - n))) &&& 0xFFFFFFFF

def smallSigma0 (x : Nat) : Nat := (rotr32 x 7) ^^^ (rotr32 x 18) ^^^ (x >>> 3)

def smallSigma1 (x : Nat) : Nat := (rotr32 x 17) ^^^ (rotr32 x 19) ^^^ (x >>> 10)

def bigSigma0 (x : Nat) : Nat := (rotr32 x 2) ^^^ (rotr32 x 13) ^^^ (rotr32 x 22)

def bigSigma1 (x : Nat) : Nat := (rotr32 x 6) ^^^ (rotr32 x 11) ^^^ (rotr32 x 25)

def shaInitH : List Nat :=
  [1779033703, 3144134277, 1013904242, 2773480762,
   1359893119, 2600822924, 528734635, 1541459225]

def shaK : List Nat :=
  [1116352408, 1899447441, 3049323471, 3921009573,
   961987163, 1508970993, 2453635748, 2870763221,
   3624381080, 310598401, 607225278, 1426881987,
   1925078388, 2162078206, 2614888103, 3248222580,
   3835390401, 4022224774, 264347078, 604807628,
   770255983, 1249150122, 1555081692, 1996064986,
   2554220882, 2821834349, 2952996808, 3210313671,
   3336571891, 3584528711, 113926993, 338241895,
   666307205, 773529912, 1294757372, 1396182291,
   1695183700, 1986661051, 2177026350, 2456956037,
   2730485921, 2820302411, 3259730800, 3345764771,
   3516065817, 3600352804, 4094571909, 275423344,
   430227734, 506948616, 659060556, 883997877,
   958139571, 1322822218, 1537002063, 1747873779,
   1955562222, 2024104815, 2227730452, 2361852424,
   2428436474, 2756734187, 3204031479, 3329325298]

/-- SHA-256 padding: append `0x80`, zero bytes, then the bit length on
8 big-endian bytes, to a multiple of 64 bytes. -/
def sha256Pad (msg : List Nat) : List Nat :=
  msg ++ [0x80] ++ List.replicate ((119 - (msg.length % 64)) % 64) 0
    ++ intToBytes 8 (8 * msg.length)

/-- Group a byte list into big-endian 32-bit words. -/
def bytesToWords : List Nat → List Nat
  | b0 :: b1 :: b2 :: b3 :: rest =>
    (((b0 * 256 + b1) * 256 + b2) * 256 + b3) :: bytesToWords rest
  | _ => []

/-- Split a byte list into 64-byte chunks. -/
def chunks64 (l : List Nat) : List (List Nat) :=
  if h : l = [] then [] else l.take 64 :: chunks64 (l.drop 64)
termination_by l.length
decreasing_by
  cases l with
  | nil => exact absurd rfl h
  | cons x xs =>
    simp only [List.length_drop, List.length_cons]
    omega

/-- Extend the 16-word message schedule by `t` further words. -/
def scheduleExtend (w : List Nat) : Nat → List Nat
  | 0 => w
  | t + 1 =>
    scheduleExtend
      (w ++ [(smallSigma1 (w.getD (w.length - 2) 0) + w.getD (w.length - 7) 0 +
          smallSigma0 (w.getD (w.length - 15) 0) + w.getD (w.length - 16) 0) &&& 0xFFFFFFFF]) t

/-- One round of the SHA-256 compression function on the state
`[a, b, c, d, e, f, g, h]`. -/
def shaRound (w : List Nat) (st : List Nat) (i : Nat) : List Nat :=
  match st with
  | [a, b, c, d, e, f, g, h] =>
    let S1 := bigSigma1 e
    let ch := (e &&& f) ^^^ ((e ^^^ 0xFFFFFFFF) &&& g)
    let temp1 := (h + S1 + ch + shaK.getD i 0 + w.getD i 0) &&& 0xFFFFFFFF
    let S0 := bigSigma0 a
    let maj := (a &&& b) ^^^ (a &&& c) ^^^ (b &&& c)
    let temp2 := (S0 + maj) &&& 0xFFFFFFFF
    [(temp1 + temp2) &&& 0xFFFFFFFF, a, b, c, (d + temp1) &&& 0xFFFFFFFF, e, f, g]
  | _ => st

/-- Process one 64-byte chunk. -/
def shaCompressChunk (hs : List Nat) (chunk : List Nat) : List Nat :=
  let w := scheduleExtend (bytesToWords chunk) 48
  let fin := (List.range 64).foldl (shaRound w) hs
  (hs.zip fin).map (fun p => (p.1 + p.2) &&& 0xFFFFFFFF)

/-- The 32-byte SHA-256 digest of a byte sequence. -/
def sha256Bytes (msg : List Nat) : List Nat :=
  (((chunks64 (sha256Pad msg)).foldl shaCompressChunk shaInitH).map
    (intToBytes 4)).flatten

/-- UTF-8 bytes of a key (model of `key.encode("utf-8")`). -/
def utf8Bytes (s : String) : List Nat :=
  s.toUTF8.toList.map (fun b => b.toNat)

/-! ### BloomFilter

A filter instance is its integer bit field `bitarr` together with the
fixed parameters `m` (bit count) and `k` (hash rounds); a fresh
instance has `bitarr = 0`. -/

/-- The `k` hash positions computed by `BloomFilter._hashes`: an 8-byte
big-endian window into the SHA-256 digest at offset
`(i*8) mod (len(h)-7)`, reduced modulo `m`. -/
def bloomHashes (m k : Nat) (key : String) : List Nat :=
  let h := sha256Bytes (utf8Bytes key)
  (List.range k).map (fun i =>
    let start := (i * 8) % (h.length - 7)
    let val := intFromBytes ((h.drop start).take 8)
    val % m)

/-- `BloomFilter.add`: set the bit at every hash position. -/
def bloomAdd (m k : Nat) (bitarr : Nat) (key : String) : Nat :=
  (bloomHashes m k key).foldl (fun acc pos => acc ||| (1 <<< pos)) bitarr

/-- `BloomFilter.__contains__`: true iff every hash position's bit is
set. -/
def bloomContains (m k : Nat) (bitarr : Nat) (key : String) : Bool :=
  (bloomHashes m k key).all (fun pos => (bitarr >>> pos) &&& 1 == 1)

/-- `BloomFilter.to_bytes`: `ceil(m/8)` big-endian bytes. -/
def bloomToBytes (m : Nat) (bitarr : Nat) : List Nat :=
  intToBytes ((m + 7) / 8) bitarr

/-- `BloomFilter.from_bytes` (the bit field part). -/
def bloomFromBytes (bs : List Nat) : Nat := intFromBytes bs

/-! ### Data model and index store -/

/-- A transaction record: `from` and `to` address keys plus topic
values (`from` is a Lean keyword, hence `fromAddr`). -/
structure Tx where
  fromAddr : String
  toAddr : String
  topics : List String

/-- One block of the input chain. -/
structure Block where
  block_number : Nat
  transactions : List Tx

/-- The keys a transaction contributes, in the order the build loop
visits them: `from`, `to`, then the `topic:`-tagged topics. -/
def txKeys (tx : Tx) : List String :=
  [tx.fromAddr, tx.toAddr] ++ tx.topics.map (fun topic => "topic:" ++ topic)

/-- All keys occurring in a batch. -/
def chainKeys (chain : List Block) : List String :=
  (chain.map (fun blk => (blk.transactions.map txKeys).flatten)).flatten

/-- The persisted index: the `shards` table rows
`(shard_id, start_block, end_block, bloom)` and the `postings` table
rows `(address, shard_id, postings)`, in insertion order. -/
structure IndexStore where
  shards : List (Nat × Nat × Nat × List Nat)
  postings : List (String × Nat × List Nat)

/-- Association-list lookup (first row with the given key). -/
def alGet {K V : Type} [BEq K] (l : List (K × V)) (k : K) : Option V :=
  (l.find? (fun p => p.1 == k)).map (fun p => p.2)

/-- Association-list update with `defaultdict` semantics: modify the
existing entry in place, or append a fresh one (Python dicts preserve
insertion order). -/
def alUpdate {K V : Type} [BEq K] (l : List (K × V)) (k : K) (f : V → V) (d : V) :
    List (K × V) :=
  match l with
  | [] => [(k, f d)]
  | p :: rest => if p.1 == k then (p.1, f p.2) :: rest else p :: alUpdate rest k f d

/-- In-memory accumulation state of `build_index`:
`shard_postings[shard_id][key]` and `shard_blooms[shard_id]`. -/
structure BuildAcc where
  shard_postings : List (Nat × List (String × List Nat))
  shard_blooms : List (Nat × Nat)

/-- Handling of one key occurrence during the build scan: append the
block number to `shard_postings[shard_id][key]` and add the key to the
shard's bloom filter. -/
def processKey (m k size blknum : Nat) (acc : BuildAcc) (key : String) : BuildAcc :=
  let sid := blknum / size
  { shard_postings := alUpdate acc.shard_postings sid
      (fun kv => alUpdate kv key (fun l => l ++ [blknum]) []) [],
    shard_blooms := alUpdate acc.shard_blooms sid (fun b => bloomAdd m k b key) 0 }

/-- Handling of one block: create the shard's bloom filter on first
sight, then scan every transaction's keys. -/
def processBlock (size m k : Nat) (acc : BuildAcc) (blk : Block) : BuildAcc :=
  let sid := blk.block_number / size
  let acc0 : BuildAcc :=
    { acc with shard_blooms :=
        if (alGet acc.shard_blooms sid).isSome then acc.shard_blooms
        else acc.shard_blooms ++ [(sid, 0)] }
  blk.transactions.foldl
    (fun a tx => (txKeys tx).foldl (processKey m k size blk.block_number) a) acc0

/-- Python `sorted(set(blocks))`. -/
def sortedUnique (l : List Nat) : List Nat :=
  List.insertionSort (· ≤ ·) l.dedup

/-- `EnhancedIndexer.build_index`: one scan over the chain, then a
flush writing, per accumulated shard, the shard row and its
deduplicated, sorted, compressed postings rows. -/
def build_index (size m k : Nat) (chain : List Block) : IndexStore :=
  let acc := chain.foldl (processBlock size m k) ⟨[], []⟩
  { shards := acc.shard_postings.map (fun p =>
      (p.1, p.1 * size, p.1 * size + size - 1,
        bloomToBytes m ((alGet acc.shard_blooms p.1).getD 0))),
    postings := (acc.shard_postings.map (fun p =>
      p.2.map (fun q => (q.1, p.1, compress_postings (sortedUnique q.2))))).flatten }

/-- The `SELECT postings FROM postings WHERE address = ? AND shard_id = ?`
fetch. -/
def getPostings (store : IndexStore) (key : String) (sid : Nat) : Option (List Nat) :=
  (store.postings.find? (fun r => r.1 == key && r.2.1 == sid)).map (fun r => r.2.2)

/-- Loop body of `postings_for`: decompress the row if present, skip a
missing row. -/
def fetchDecompressed (store : IndexStore) (key : String) (sid : Nat) :
    Except String (List Nat) :=
  match getPostings store key sid with
  | some comp => decompress_postings comp
  | none => .ok []

/-- The list produced by `fetchDecompressed` when it succeeds. -/
def fetchList (store : IndexStore) (key : String) (sid : Nat) : List Nat :=
  match fetchDecompressed store key sid with
  | .ok l => l
  | .error _ => []

/-- The bloom-pruned candidate shard scan of `postings_for`. -/
def candidateShards (store : IndexStore) (m k : Nat) (key : String) : List Nat :=
  (store.shards.filter (fun s => bloomContains m k (bloomFromBytes s.2.2.2) key)).map
    (fun s => s.1)

/-- `EnhancedIndexer.postings_for`: concatenate the decompressed
postings of every candidate shard, then `sorted(res)`. -/
def postings_for (store : IndexStore) (m k : Nat) (key : String) :
    Except String (List Nat) := do
  let res ← (candidateShards store m k key).foldlM
    (fun acc sid => do pure (acc ++ (← fetchDecompressed store key sid)))
    ([] : List Nat)
  pure (List.insertionSort (· ≤ ·) res)

/-- `EnhancedIndexer.intersect_sorted`: two-pointer intersection. -/
def intersect_sorted : List Nat → List Nat → List Nat
  | [], _ => []
  | _ :: _, [] => []
  | a :: as, b :: bs =>
    if a = b then a :: intersect_sorted as bs
    else if a < b then intersect_sorted as (b :: bs)
    else intersect_sorted (a :: as) bs
termination_by x y => x.length + y.length

/-- The two-pointer merge loops of `EnhancedIndexer.merge_sorted`
(main loop plus the two tail-draining loops). -/
def merge_core : List Nat → List Nat → List Nat
  | [], ys => ys
  | x :: xs, [] => x :: xs
  | a :: as, b :: bs =>
    if a = b then a :: merge_core as bs
    else if a < b then a :: merge_core as (b :: bs)
    else b :: merge_core (a :: as) bs
termination_by x y => x.length + y.length

/-- The final duplicate-removal pass of `merge_sorted` (`prev` starts
as `None` and is updated only when an element is kept). -/
def dedup_adjacent (prev : Option Nat) : List Nat → List Nat
  | [] => []
  | x :: xs =>
    if some x = prev then dedup_adjacent prev xs
    else x :: dedup_adjacent (some x) xs

/-- `EnhancedIndexer.merge_sorted`. -/
def merge_sorted (a b : List Nat) : List Nat :=
  dedup_adjacent none (merge_core a b)

/-- `EnhancedIndexer.boolean_query`. -/
def boolean_query (store : IndexStore) (m k : Nat)
    (must_have any_of : List String) : Except String (List Nat) := do
  let lists ← must_have.mapM (postings_for store m k)
  let required : Option (List Nat) :=
    match lists with
    | [] => none
    | l :: ls => some (ls.foldl intersect_sorted l)
  let any_list ← any_of.foldlM
    (fun acc key => do pure (merge_sorted acc (← postings_for store m k key)))
    ([] : List Nat)
  match required with
  | none => if any_list.isEmpty then pure [] else pure any_list
  | some req => if any_list.isEmpty then pure req else pure (intersect_sorted req any_list)

/-- Concrete store exhibiting the `boolean_query` combination corner
case: key `"a"` has postings `[0]` in shard 0, key `"b"` has none
(`k = 0` makes every key a bloom candidate). -/
def cexStore : IndexStore :=
  { shards := [(0, 0, 99, [])], postings := [("a", 0, [0])] }

/-- The result `boolean_query` produces from the per-key postings
lists `mls` (for `must_have`) and `als` (for `any_of`): the left-to-right
intersection of `mls` when non-empty, combined with the duplicate-free
union of `als`, where an empty union behaves like an absent `any_of`
constraint. -/
def combineQuery (mls als : List (List Nat)) : List Nat :=
  match mls with
  | [] => als.foldl merge_sorted []
  | l :: ls =>
    if (als.foldl merge_sorted []).isEmpty then ls.foldl intersect_sorted l
    else intersect_sorted (ls.foldl intersect_sorted l) (als.foldl merge_sorted [])

/-! ### Bitwise helper lemmas -/

theorem shiftLeft_lor_distrib (a b s : Nat) :
    (a ||| b) <<< s = (a <<< s) ||| (b <<< s) := by
  apply Nat.eq_of_testBit_eq
  intro i
  simp [Nat.testBit_shiftLeft, Nat.testBit_lor, Bool.and_or_distrib_left]

theorem land_lor_distrib_right (a b c : Nat) :
    (a ||| b) &&& c = (a &&& c) ||| (b &&& c) := by
  apply Nat.eq_of_testBit_eq
  intro i
  simp [Nat.testBit_land, Nat.testBit_lor, Bool.and_or_distrib_right]

theorem low_high_split (n : Nat) : (n &&& 127) ||| ((n >>> 7) <<< 7) = n := by
  apply Nat.eq_of_testBit_eq
  intro i
  have h127 : (127 : Nat) = 2 ^ 7 - 1 := by norm_num
  simp only [Nat.testBit_lor, Nat.testBit_land, Nat.testBit_shiftLeft,
    Nat.testBit_shiftRight, h127, Nat.testBit_two_pow_sub_one]
  rcases lt_or_ge i 7 with h | h
  · simp [h, Nat.not_le.mpr h]
  · simp [h, Nat.not_lt.mpr h, Nat.add_sub_cancel' h]

theorem land_127_of_lt {t : Nat} (h : t < 128) : t &&& 127 = t := by
  rw [show (127 : Nat) = 2 ^ 7 - 1 by norm_num,
    Nat.and_pow_two_sub_one_eq_mod]
  exact Nat.mod_eq_of_lt h

theorem land_128_of_lt {t : Nat} (h : t < 128) : t &&& 128 = 0 := by
  apply Nat.eq_of_testBit_eq
  intro i
  have h128 : (128 : Nat) = 2 ^ 7 := by norm_num
  simp only [Nat.testBit_land, h128, Nat.testBit_two_pow, Nat.zero_testBit]
  rcases eq_or_ne 7 i with rfl | hne
  · simp [Nat.testBit_lt_two_pow (h128 ▸ h)]
  · simp [hne]

theorem land_127_lt (n : Nat) : n &&& 127 < 128 := by
  rw [show (127 : Nat) = 2 ^ 7 - 1 by norm_num,
    Nat.and_pow_two_sub_one_eq_mod]
  exact Nat.mod_lt _ (by norm_num)

theorem lt_128_of_shiftRight_eq_zero {n : Nat} (h : n >>> 7 = 0) : n < 128 := by
  rw [Nat.shiftRight_eq_div_pow] at h
  have := (Nat.div_eq_zero_iff (by norm_num : 0 < 2 ^ 7)).mp h
  simpa using this

/-! ### Varint round-trip -/

theorem varint_encode_ne_nil (n : Nat) : varint_encode n ≠ [] := by
  rw [varint_encode]
  split <;> simp

theorem varint_decode_go_encode (n : Nat) : ∀ (rest : List Nat) (shift val : Nat),
    varint_decode_go (varint_encode n ++ rest) shift val =
      match rest with
      | [] => .ok [val ||| (n <<< shift)]
      | _ :: _ =>
        match varint_decode_go rest 0 0 with
        | .ok vs => .ok ((val ||| (n <<< shift)) :: vs)
        | .error e => .error e := by
  induction n using Nat.strong_induction_on with
  | _ n ih =>
    intro rest shift val
    rw [varint_encode]
    by_cases h7 : n >>> 7 = 0
    · have hn : n < 128 := lt_128_of_shiftRight_eq_zero h7
      simp only [h7, if_pos rfl]
      show varint_decode_go ((n &&& 127) :: rest) shift val = _
      rw [land_127_of_lt hn]
      simp only [varint_decode_go]
      simp only [land_127_of_lt hn, land_128_of_lt hn, if_pos rfl, if_true,
        eq_self_iff_true]
    · simp only [h7, if_neg h7]
      show varint_decode_go (((n &&& 127) ||| 128) :: (varint_encode (n >>> 7) ++ rest)) shift val = _
      simp only [varint_decode_go]
      have hb127 : ((n &&& 127) ||| 128) &&& 127 = n &&& 127 := by
        rw [land_lor_distrib_right, land_127_of_lt (land_127_lt n),
          show (128 : Nat) &&& 127 = 0 from by decide, Nat.or_zero]
      have hb128 : ((n &&& 127) ||| 128) &&& 128 ≠ 0 := by
        rw [land_lor_distrib_right, land_128_of_lt (land_127_lt n)]
        decide
      simp only [hb127, hb128, if_neg hb128]
      have hlt : n >>> 7 < n := by
        rw [Nat.shiftRight_eq_div_pow]
        refine Nat.div_lt_self (Nat.pos_of_ne_zero ?_) (by norm_num)
        intro h0
        simp [h0] at h7
      rw [ih (n >>> 7) hlt rest (shift + 7) (val ||| ((n &&& 127) <<< shift))]
      have hval : (val ||| ((n &&& 127) <<< shift)) ||| ((n >>> 7) <<< (shift + 7)) =
          val ||| (n <<< shift) := by
        rw [Nat.lor_assoc]
        congr 1
        rw [Nat.add_comm shift 7, Nat.shiftLeft_add, ← shiftLeft_lor_distrib,
          low_high_split]
      rw [hval]
      simp

theorem varint_stream_encode_append (n : Nat) (bs : List Nat) :
    varint_decode_stream (varint_encode n ++ bs) =
      (varint_decode_stream bs).map (n :: ·) := by
  obtain ⟨c, cs, hcons⟩ : ∃ c cs, varint_encode n ++ bs = c :: cs := by
    cases h : varint_encode n ++ bs with
    | nil => exact absurd h (by simp [varint_encode_ne_nil n])
    | cons c cs => exact ⟨c, cs, rfl⟩
  have h1 : varint_decode_stream (varint_encode n ++ bs) =
      varint_decode_go (varint_encode n ++ bs) 0 0 := by
    rw [hcons]
    rfl
  rw [h1, varint_decode_go_encode n bs 0 0]
  cases bs with
  | nil => simp [varint_decode_stream, Except.map]
  | cons b bs' =>
    have h2 : varint_decode_stream (b :: bs') = varint_decode_go (b :: bs') 0 0 := rfl
    rw [h2]
    cases varint_decode_go (b :: bs') 0 0 <;> simp [Except.map]

theorem varint_stream_flatten (ns : List Nat) :
    varint_decode_stream ((ns.map varint_encode).flatten) = .ok ns := by
  induction ns with
  | nil => rfl
  | cons n rest ih =>
    simp only [List.map_cons, List.flatten_cons]
    rw [varint_stream_encode_append, ih]
    rfl

/-! ### Compression round-trip -/

theorem compress_roundtripFrom (L : List Nat) :
    ∀ prev : Nat, List.Chain (· ≤ ·) prev L →
      ∃ ds, varint_decode_stream (compressFrom prev L) = .ok ds ∧
        decompressFrom prev ds = L := by
  induction L with
  | nil => exact fun prev _ => ⟨[], rfl, rfl⟩
  | cons b r ih =>
    intro prev hc
    cases hc with
    | cons hle hc' =>
      obtain ⟨ds, hds, hdec⟩ := ih b hc'
      refine ⟨(b - prev) :: ds, ?_, ?_⟩
      · show varint_decode_stream (varint_encode (b - prev) ++ compressFrom b r) = _
        rw [varint_stream_encode_append, hds]
        rfl
      · show decompressFrom prev ((b - prev) :: ds) = b :: r
        simp only [decompressFrom]
        rw [Nat.add_sub_cancel' hle, hdec]

theorem chain_le_zero_of_sorted {L : List Nat} (h : List.Sorted (· < ·) L) :
    List.Chain (· ≤ ·) 0 L := by
  cases L with
  | nil => exact List.Chain.nil
  | cons a t =>
    refine List.Chain.cons (Nat.zero_le a) ?_
    have hchain : List.Chain' (· < ·) (a :: t) := (List.chain'_iff_pairwise).mpr h
    have hca : List.Chain (· < ·) a t := hchain
    exact hca.imp (fun x y hxy => le_of_lt hxy)

theorem decompress_compress_of_sorted {L : List Nat} (h : List.Sorted (· < ·) L) :
    decompress_postings (compress_postings L) = .ok L := by
  cases L with
  | nil => rfl
  | cons a t =>
    obtain ⟨ds, hds, hdec⟩ :=
      compress_roundtripFrom (a :: t) 0 (chain_le_zero_of_sorted h)
    show (varint_decode_stream (compress_postings (a :: t))).map (decompressFrom 0) = _
    have hcp : compress_postings (a :: t) = compressFrom 0 (a :: t) := by
      simp [compress_postings]
    rw [hcp, hds]
    simp [Except.map, hdec]

/-! ### Malformed buffers -/

theorem varint_decode_go_cons (byte : Nat) (rest : List Nat) (shift val : Nat) :
    varint_decode_go (byte :: rest) shift val =
      if byte &&& 0x80 = 0 then
        match rest with
        | [] => .ok [val ||| ((byte &&& 0x7F) <<< shift)]
        | _ :: _ =>
          match varint_decode_go rest 0 0 with
          | .ok vs => .ok ((val ||| ((byte &&& 0x7F) <<< shift)) :: vs)
          | .error e => .error e
      else varint_decode_go rest (shift + 7) (val ||| ((byte &&& 0x7F) <<< shift)) := rfl

theorem varint_decode_go_error_of_last_cont :
    ∀ (bs : List Nat) (shift val c : Nat), bs.getLast? = some c → c &&& 0x80 ≠ 0 →
      varint_decode_go bs shift val = .error "index out of range" := by
  intro bs
  induction bs with
  | nil =>
    intro shift val c hc
    simp at hc
  | cons byte rest ih =>
    intro shift val c hc hcont
    by_cases hb : byte &&& 128 = 0
    · cases rest with
      | nil =>
        have hcb : byte = c := by simpa using hc
        subst hcb
        exact absurd hb hcont
      | cons r rs =>
        have hlast : (r :: rs).getLast? = some c := by
          rw [← List.getLast?_cons_cons (a := byte)]
          exact hc
        rw [varint_decode_go_cons, if_pos hb, ih 0 0 c hlast hcont]
    · cases rest with
      | nil =>
        rw [varint_decode_go_cons, if_neg hb]
        rfl
      | cons r rs =>
        have hlast : (r :: rs).getLast? = some c := by
          rw [← List.getLast?_cons_cons (a := byte)]
          exact hc
        rw [varint_decode_go_cons, if_neg hb]
        exact ih _ _ c hlast hcont

theorem varint_stream_error_of_last_cont {bs : List Nat} {c : Nat}
    (hc : bs.getLast? = some c) (hcont : c &&& 0x80 ≠ 0) :
    varint_decode_stream bs = .error "index out of range" := by
  cases bs with
  | nil => simp at hc
  | cons b rest =>
    show varint_decode_go (b :: rest) 0 0 = _
    exact varint_decode_go_error_of_last_cont (b :: rest) 0 0 c hc hcont

/-! ### Termination facts about `varint_encode` -/

theorem varint_encode_fuel_neg_one : ∀ fuel : Nat, varint_encode_fuel fuel (-1) = none := by
  intro fuel
  induction fuel with
  | zero => rfl
  | succ f ih =>
    simp only [varint_encode_fuel]
    rw [show ((-1 : Int) >>> 7) = -1 from by decide]
    simp [ih]

theorem varint_encode_fuel_nat : ∀ fuel n : Nat, n < fuel →
    varint_encode_fuel fuel (n : Int) = some (varint_encode n) := by
  intro fuel
  induction fuel with
  | zero => intro n h; omega
  | succ f ih =>
    intro n hn
    simp only [varint_encode_fuel]
    have hshift : ((n : Int) >>> (7 : Int)) = ((n >>> 7 : Nat) : Int) := rfl
    have hmod : ((n : Int) % 128).toNat = n &&& 127 := by
      have h1 : ((n : Int) % 128) = ((n % 128 : Nat) : Int) := by push_cast; ring
      rw [h1, Int.toNat_natCast,
        show (127 : Nat) = 2 ^ 7 - 1 by norm_num, Nat.and_pow_two_sub_one_eq_mod]
    rw [hshift, hmod]
    by_cases h0 : n >>> 7 = 0
    · rw [varint_encode]
      simp [h0]
    · have h0' : ((n >>> 7 : Nat) : Int) ≠ 0 := by exact_mod_cast h0
      have hlt : n >>> 7 < f := by
        have h1 : n >>> 7 < n := by
          rw [Nat.shiftRight_eq_div_pow]
          refine Nat.div_lt_self (Nat.pos_of_ne_zero ?_) (by norm_num)
          intro hz
          simp [hz] at h0
        omega
      rw [if_neg h0', ih (n >>> 7) hlt]
      conv_rhs => rw [varint_encode]
      simp [h0]

theorem compress_deltasFrom_nonneg (L : List Int) :
    ∀ prev : Int, List.Chain (· ≤ ·) prev L →
      ∀ d ∈ compress_deltasFrom prev L, 0 ≤ d := by
  induction L with
  | nil => intro prev _ d hd; simp [compress_deltasFrom] at hd
  | cons b r ih =>
    intro prev hc d hd
    cases hc with
    | cons hle hc' =>
      simp only [compress_deltasFrom, List.mem_cons] at hd
      rcases hd with rfl | hd
      · omega
      · exact ih b hc' d hd

/-! ### Sorted-list facts -/

theorem sorted_lt_of_sorted_le_nodup {l : List Nat}
    (hs : List.Sorted (· ≤ ·) l) (hn : l.Nodup) : List.Sorted (· < ·) l :=
  (List.Pairwise.and hs hn).imp (fun h => lt_of_le_of_ne h.1 h.2)

theorem insertionSort_sorted_lt {l : List Nat} (hn : l.Nodup) :
    List.Sorted (· < ·) (List.insertionSort (· ≤ ·) l) :=
  sorted_lt_of_sorted_le_nodup (List.sorted_insertionSort _ _)
    (((List.perm_insertionSort _ _).nodup_iff).mpr hn)

theorem sortedUnique_sorted (l : List Nat) :
    List.Sorted (· < ·) (sortedUnique l) :=
  insertionSort_sorted_lt (List.nodup_dedup l)

theorem sortedUnique_mem (l : List Nat) (x : Nat) :
    x ∈ sortedUnique l ↔ x ∈ l := by
  rw [sortedUnique, (List.perm_insertionSort _ _).mem_iff, List.mem_dedup]

theorem not_mem_of_lt_head {a b : Nat} {bs : List Nat}
    (h : List.Sorted (· < ·) (b :: bs)) (hab : a < b) : a ∉ b :: bs := by
  intro hm
  rcases List.mem_cons.mp hm with rfl | hm
  · exact lt_irrefl a hab
  · exact absurd (lt_trans hab ((List.sorted_cons.mp h).1 a hm)) (lt_irrefl a)

theorem not_mem_of_sorted_head {a : Nat} {l : List Nat}
    (h : List.Sorted (· < ·) (a :: l)) : a ∉ l :=
  fun hm => lt_irrefl a ((List.sorted_cons.mp h).1 a hm)

/-! ### Two-pointer intersection -/

theorem intersect_sorted_spec :
    ∀ A B : List Nat, List.Sorted (· < ·) A → List.Sorted (· < ·) B →
      List.Sorted (· < ·) (intersect_sorted A B) ∧
        ∀ x, x ∈ intersect_sorted A B ↔ x ∈ A ∧ x ∈ B := by
  intro A B
  induction A, B using intersect_sorted.induct with
  | case1 B =>
    intro _ _
    simp [intersect_sorted]
  | case2 a as =>
    intro _ _
    simp [intersect_sorted]
  | case3 as b bs ih =>
    intro hA hB
    obtain ⟨ihs, ihm⟩ := ih (List.sorted_cons.mp hA).2 (List.sorted_cons.mp hB).2
    have hrw : intersect_sorted (b :: as) (b :: bs) = b :: intersect_sorted as bs := by
      simp [intersect_sorted]
    rw [hrw]
    constructor
    · rw [List.sorted_cons]
      refine ⟨?_, ihs⟩
      intro x hx
      exact (List.sorted_cons.mp hA).1 x ((ihm x).mp hx).1
    · intro x
      simp only [List.mem_cons, ihm]
      constructor
      · rintro (rfl | ⟨h1, h2⟩)
        · exact ⟨Or.inl rfl, Or.inl rfl⟩
        · exact ⟨Or.inr h1, Or.inr h2⟩
      · rintro ⟨rfl | h1, h2⟩
        · exact Or.inl rfl
        · rcases h2 with rfl | h2
          · exact absurd h1 (not_mem_of_sorted_head hA)
          · exact Or.inr ⟨h1, h2⟩
  | case4 a as b bs hne hlt ih =>
    intro hA hB
    obtain ⟨ihs, ihm⟩ := ih (List.sorted_cons.mp hA).2 hB
    have hrw : intersect_sorted (a :: as) (b :: bs) = intersect_sorted as (b :: bs) := by
      simp [intersect_sorted, hne, hlt]
    rw [hrw]
    refine ⟨ihs, ?_⟩
    intro x
    rw [ihm]
    constructor
    · rintro ⟨h1, h2⟩
      exact ⟨List.mem_cons_of_mem a h1, h2⟩
    · rintro ⟨h1, h2⟩
      rcases List.mem_cons.mp h1 with rfl | h1
      · exact absurd h2 (not_mem_of_lt_head hB hlt)
      · exact ⟨h1, h2⟩
  | case5 a as b bs hne hnlt ih =>
    intro hA hB
    obtain ⟨ihs, ihm⟩ := ih hA (List.sorted_cons.mp hB).2
    have hgt : b < a := by omega
    have hrw : intersect_sorted (a :: as) (b :: bs) = intersect_sorted (a :: as) bs := by
      simp [intersect_sorted, hne, hnlt]
    rw [hrw]
    refine ⟨ihs, ?_⟩
    intro x
    rw [ihm]
    constructor
    · rintro ⟨h1, h2⟩
      exact ⟨h1, List.mem_cons_of_mem b h2⟩
    · rintro ⟨h1, h2⟩
      rcases List.mem_cons.mp h2 with rfl | h2
      · exact absurd h1 (not_mem_of_lt_head hA hgt)
      · exact ⟨h1, h2⟩

/-! ### Two-pointer merge -/

theorem merge_core_spec :
    ∀ A B : List Nat, List.Sorted (· < ·) A → List.Sorted (· < ·) B →
      List.Sorted (· < ·) (merge_core A B) ∧
        ∀ x, x ∈ merge_core A B ↔ x ∈ A ∨ x ∈ B := by
  intro A B
  induction A, B using merge_core.induct with
  | case1 B =>
    intro _ hB
    simp [merge_core, hB]
  | case2 a as =>
    intro hA _
    simp [merge_core, hA]
  | case3 as b bs ih =>
    intro hA hB
    obtain ⟨ihs, ihm⟩ := ih (List.sorted_cons.mp hA).2 (List.sorted_cons.mp hB).2
    have hrw : merge_core (b :: as) (b :: bs) = b :: merge_core as bs := by
      simp [merge_core]
    rw [hrw]
    constructor
    · rw [List.sorted_cons]
      refine ⟨?_, ihs⟩
      intro x hx
      rcases (ihm x).mp hx with h | h
      · exact (List.sorted_cons.mp hA).1 x h
      · exact (List.sorted_cons.mp hB).1 x h
    · intro x
      simp only [List.mem_cons, ihm]
      tauto
  | case4 a as b bs hne hlt ih =>
    intro hA hB
    obtain ⟨ihs, ihm⟩ := ih (List.sorted_cons.mp hA).2 hB
    have hrw : merge_core (a :: as) (b :: bs) = a :: merge_core as (b :: bs) := by
      simp [merge_core, hne, hlt]
    rw [hrw]
    constructor
    · rw [List.sorted_cons]
      refine ⟨?_, ihs⟩
      intro x hx
      rcases (ihm x).mp hx with h | h
      · exact (List.sorted_cons.mp hA).1 x h
      · rcases List.mem_cons.mp h with rfl | h
        · exact hlt
        · exact lt_trans hlt ((List.sorted_cons.mp hB).1 x h)
    · intro x
      simp only [List.mem_cons, ihm]
      tauto
  | case5 a as b bs hne hnlt ih =>
    intro hA hB
    obtain ⟨ihs, ihm⟩ := ih hA (List.sorted_cons.mp hB).2
    have hgt : b < a := by omega
    have hrw : merge_core (a :: as) (b :: bs) = b :: merge_core (a :: as) bs := by
      simp [merge_core, hne, hnlt]
    rw [hrw]
    constructor
    · rw [List.sorted_cons]
      refine ⟨?_, ihs⟩
      intro x hx
      rcases (ihm x).mp hx with h | h
      · rcases List.mem_cons.mp h with rfl | h
        · exact hgt
        · exact lt_trans hgt ((List.sorted_cons.mp hA).1 x h)
      · exact (List.sorted_cons.mp hB).1 x h
    · intro x
      simp only [List.mem_cons, ihm]
      tauto

theorem dedup_adjacent_of_sorted :
    ∀ l : List Nat, List.Sorted (· < ·) l →
      ∀ p : Option Nat, (∀ y, p = some y → ∀ x ∈ l, y < x) →
        dedup_adjacent p l = l := by
  intro l
  induction l with
  | nil => intro _ p _; rfl
  | cons x xs ih =>
    intro hs p hp
    have hne : some x ≠ p := by
      intro hxp
      exact lt_irrefl x (hp x hxp.symm x (List.mem_cons_self x xs))
    simp only [dedup_adjacent, if_neg hne]
    rw [ih (List.sorted_cons.mp hs).2 (some x) ?_]
    intro y hy z hz
    cases Option.some.inj hy
    exact (List.sorted_cons.mp hs).1 z hz

theorem merge_sorted_spec {A B : List Nat}
    (hA : List.Sorted (· < ·) A) (hB : List.Sorted (· < ·) B) :
    List.Sorted (· < ·) (merge_sorted A B) ∧
      ∀ x, x ∈ merge_sorted A B ↔ x ∈ A ∨ x ∈ B := by
  obtain ⟨hs, hm⟩ := merge_core_spec A B hA hB
  have hd : merge_sorted A B = merge_core A B :=
    dedup_adjacent_of_sorted (merge_core A B) hs none (by simp)
  rw [hd]
  exact ⟨hs, hm⟩

/-! ### Bloom filter: no false negatives -/

theorem bit_check_iff (b p : Nat) :
    (((b >>> p) &&& 1 == 1) = true) ↔ b.testBit p = true := by
  rw [Nat.shiftRight_eq_div_pow, Nat.and_one_is_mod, Nat.testBit_to_div_mod]
  simp

theorem foldl_or_testBit_mono (ps : List Nat) :
    ∀ b i : Nat, b.testBit i = true →
      (ps.foldl (fun acc pos => acc ||| (1 <<< pos)) b).testBit i = true := by
  induction ps with
  | nil => exact fun b i h => h
  | cons p ps ih =>
    intro b i h
    exact ih _ i (by simp [Nat.testBit_lor, h])

theorem foldl_or_testBit_self (ps : List Nat) :
    ∀ (b p : Nat), p ∈ ps →
      (ps.foldl (fun acc pos => acc ||| (1 <<< pos)) b).testBit p = true := by
  induction ps with
  | nil => intro b p hp; simp at hp
  | cons q qs ih =>
    intro b p hp
    rcases List.mem_cons.mp hp with rfl | hp
    · refine foldl_or_testBit_mono qs _ p ?_
      simp [Nat.testBit_lor, Nat.testBit_shiftLeft]
    · exact ih _ p hp

theorem bloomAdd_testBit_mono (m k : Nat) (s : String) (b i : Nat)
    (h : b.testBit i = true) : (bloomAdd m k b s).testBit i = true :=
  foldl_or_testBit_mono _ b i h

theorem foldl_bloomAdd_testBit_mono (m k : Nat) (keys : List String) :
    ∀ b i : Nat, b.testBit i = true →
      (keys.foldl (bloomAdd m k) b).testBit i = true := by
  induction keys with
  | nil => exact fun b i h => h
  | cons s ss ih =>
    intro b i h
    exact ih _ i (bloomAdd_testBit_mono m k s b i h)

theorem bloomAdd_testBit_self (m k : Nat) (key : String) (b pos : Nat)
    (hpos : pos ∈ bloomHashes m k key) : (bloomAdd m k b key).testBit pos = true :=
  foldl_or_testBit_self _ b pos hpos

theorem bloomContains_after_adds (m k : Nat) (pre post : List String)
    (key : String) (b0 : Nat) :
    bloomContains m k ((pre ++ key :: post).foldl (bloomAdd m k) b0) key = true := by
  rw [List.foldl_append, List.foldl_cons]
  rw [bloomContains, List.all_eq_true]
  intro pos hpos
  apply (bit_check_iff _ _).mpr
  exact foldl_bloomAdd_testBit_mono m k post _ pos
    (bloomAdd_testBit_self m k key _ pos hpos)

/-! ### Decoding errors carry a single message -/

theorem varint_decode_go_error_msg :
    ∀ (bs : List Nat) (shift val : Nat) (e : String),
      varint_decode_go bs shift val = .error e → e = "index out of range" := by
  intro bs
  induction bs with
  | nil =>
    intro shift val e h
    rw [varint_decode_go] at h
    exact (Except.error.inj h).symm
  | cons byte rest ih =>
    intro shift val e h
    rw [varint_decode_go_cons] at h
    by_cases hb : byte &&& 128 = 0
    · rw [if_pos hb] at h
      cases rest with
      | nil => exact absurd h (by simp)
      | cons r rs =>
        cases hgo : varint_decode_go (r :: rs) 0 0 with
        | ok vs => rw [hgo] at h; exact absurd h (by simp)
        | error e' =>
          rw [hgo] at h
          have he : e = e' := (Except.error.inj h).symm
          rw [he]
          exact ih 0 0 e' hgo
    · rw [if_neg hb] at h
      exact ih _ _ e h

theorem varint_stream_error_msg {bs : List Nat} {e : String}
    (h : varint_decode_stream bs = .error e) : e = "index out of range" := by
  cases bs with
  | nil => exact absurd h (by simp [varint_decode_stream])
  | cons b rest => exact varint_decode_go_error_msg (b :: rest) 0 0 e h

theorem decompress_error_msg {b : List Nat} {e : String}
    (h : decompress_postings b = .error e) : e = "index out of range" := by
  rw [decompress_postings] at h
  cases hs : varint_decode_stream b with
  | ok l => rw [hs] at h; exact absurd h (by simp [Except.map])
  | error e' =>
    rw [hs] at h
    have h2 : (Except.error e' : Except String (List Nat)) = Except.error e := h
    have he : e = e' := (Except.error.inj h2).symm
    rw [he]
    exact varint_stream_error_msg hs

theorem fetchDecompressed_error_msg {store : IndexStore} {key : String} {sid : Nat}
    {e : String} (h : fetchDecompressed store key sid = .error e) :
    e = "index out of range" := by
  rw [fetchDecompressed] at h
  cases hg : getPostings store key sid with
  | some comp => rw [hg] at h; exact decompress_error_msg h
  | none => rw [hg] at h; exact absurd h (by simp)

/-! ### Characterization of the `postings_for` loop -/

theorem perm_all_congr {l1 l2 : List Nat} (h : l1.Perm l2) (f : Nat → Bool) :
    l1.all f = l2.all f := by
  cases hh : l2.all f with
  | true =>
    exact List.all_eq_true.mpr (fun x hx => List.all_eq_true.mp hh x (h.mem_iff.mp hx))
  | false =>
    cases hh1 : l1.all f with
    | false => rfl
    | true =>
      have h2 : l2.all f = true :=
        List.all_eq_true.mpr (fun x hx => List.all_eq_true.mp hh1 x (h.mem_iff.mpr hx))
      rw [hh] at h2
      simp at h2

theorem insertionSort_eq_of_perm {l1 l2 : List Nat} (h : l1.Perm l2) :
    List.insertionSort (· ≤ ·) l1 = List.insertionSort (· ≤ ·) l2 :=
  List.eq_of_perm_of_sorted
    ((List.perm_insertionSort _ l1).trans (h.trans (List.perm_insertionSort _ l2).symm))
    (List.sorted_insertionSort _ l1) (List.sorted_insertionSort _ l2)

theorem fetchList_eq_of_ok {store : IndexStore} {key : String} {sid : Nat} {l : List Nat}
    (h : fetchDecompressed store key sid = .ok l) : fetchList store key sid = l := by
  rw [fetchList, h]

theorem postings_loop_ok (store : IndexStore) (key : String) :
    ∀ (cands : List Nat) (init : List Nat),
      (∀ sid ∈ cands, (fetchDecompressed store key sid).isOk = true) →
      (List.foldlM (fun acc sid => do
          pure (acc ++ (← fetchDecompressed store key sid))) init cands :
        Except String (List Nat)) =
        .ok (init ++ (cands.map (fetchList store key)).flatten) := by
  intro cands
  induction cands with
  | nil =>
    intro init _
    show (Except.ok init : Except String (List Nat)) = _
    simp
  | cons sid rest ih =>
    intro init hall
    obtain ⟨l, hl⟩ : ∃ l, fetchDecompressed store key sid = .ok l := by
      cases hf : fetchDecompressed store key sid with
      | ok l => exact ⟨l, rfl⟩
      | error e =>
        have hok := hall sid (List.mem_cons_self sid rest)
        rw [hf] at hok
        simp [Except.isOk, Except.toBool] at hok
    rw [List.foldlM_cons]
    have hstep : (do
        pure (init ++ (← fetchDecompressed store key sid)) :
          Except String (List Nat)) = .ok (init ++ l) := by
      rw [hl]
      rfl
    rw [hstep]
    show (List.foldlM _ (init ++ l) rest : Except String (List Nat)) = _
    rw [ih (init ++ l) (fun s hs => hall s (List.mem_cons_of_mem sid hs))]
    simp [List.map_cons, List.flatten_cons, fetchList_eq_of_ok hl, List.append_assoc]

theorem postings_loop_error (store : IndexStore) (key : String) :
    ∀ (cands : List Nat) (init : List Nat),
      ¬ (∀ sid ∈ cands, (fetchDecompressed store key sid).isOk = true) →
      (List.foldlM (fun acc sid => do
          pure (acc ++ (← fetchDecompressed store key sid))) init cands :
        Except String (List Nat)) = .error "index out of range" := by
  intro cands
  induction cands with
  | nil =>
    intro init h
    exact absurd (fun s hs => absurd hs (List.not_mem_nil s)) h
  | cons sid rest ih =>
    intro init hnall
    cases hf : fetchDecompressed store key sid with
    | ok l =>
      rw [List.foldlM_cons]
      have hstep : (do
          pure (init ++ (← fetchDecompressed store key sid)) :
            Except String (List Nat)) = .ok (init ++ l) := by
        rw [hf]
        rfl
      rw [hstep]
      show (List.foldlM _ (init ++ l) rest : Except String (List Nat)) = _
      refine ih (init ++ l) ?_
      intro hrest
      apply hnall
      intro s hs
      rcases List.mem_cons.mp hs with rfl | hs
      · rw [hf]; rfl
      · exact hrest s hs
    | error e =>
      rw [List.foldlM_cons]
      have hstep : (do
          pure (init ++ (← fetchDecompressed store key sid)) :
            Except String (List Nat)) = .error e := by
        rw [hf]
        rfl
      rw [hstep]
      show (Except.error e >>= _ : Except String (List Nat)) = _
      rw [fetchDecompressed_error_msg hf]
      rfl

theorem postings_for_characterization (store : IndexStore) (m k : Nat) (key : String) :
    postings_for store m k key =
      if (candidateShards store m k key).all
          (fun sid => (fetchDecompressed store key sid).isOk) = true
      then .ok (List.insertionSort (· ≤ ·)
        (((candidateShards store m k key).map (fetchList store key)).flatten))
      else .error "index out of range" := by
  by_cases h : ∀ sid ∈ candidateShards store m k key,
      (fetchDecompressed store key sid).isOk = true
  · rw [if_pos (List.all_eq_true.mpr h)]
    show ((candidateShards store m k key).foldlM _ ([] : List Nat) >>= _ :
      Except String (List Nat)) = _
    rw [postings_loop_ok store key _ [] h]
    rfl
  · rw [if_neg (by intro hb; exact h (List.all_eq_true.mp hb))]
    show ((candidateShards store m k key).foldlM _ ([] : List Nat) >>= _ :
      Except String (List Nat)) = _
    rw [postings_loop_error store key _ [] h]
    rfl

/-! ### Association-list facts -/

theorem alUpdate_mem {K V : Type} [BEq K] [LawfulBEq K]
    (l : List (K × V)) (k : K) (f : V → V) (d : V) :
    ∀ x ∈ alUpdate l k f d,
      x ∈ l ∨ ∃ v, x = (k, f v) ∧ (v = d ∨ (k, v) ∈ l) := by
  induction l with
  | nil =>
    intro x hx
    simp only [alUpdate, List.mem_singleton] at hx
    exact Or.inr ⟨d, hx, Or.inl rfl⟩
  | cons p rest ih =>
    intro x hx
    rw [alUpdate] at hx
    by_cases hpk : p.1 == k
    · rw [if_pos hpk] at hx
      have hk : p.1 = k := eq_of_beq hpk
      rcases List.mem_cons.mp hx with rfl | hx
      · refine Or.inr ⟨p.2, by rw [hk], Or.inr ?_⟩
        have hp : (k, p.2) = p := by rw [← hk]
        rw [hp]
        exact List.mem_cons_self p rest
      · exact Or.inl (List.mem_cons_of_mem p hx)
    · rw [if_neg hpk] at hx
      rcases List.mem_cons.mp hx with rfl | hx
      · exact Or.inl (List.mem_cons_self x rest)
      · rcases ih x hx with h | ⟨v, hxv, hv⟩
        · exact Or.inl (List.mem_cons_of_mem p h)
        · exact Or.inr ⟨v, hxv, hv.imp id (List.mem_cons_of_mem p)⟩

theorem alUpdate_keys {K V : Type} [BEq K] [LawfulBEq K]
    (l : List (K × V)) (k : K) (f : V → V) (d : V) :
    (alUpdate l k f d).map Prod.fst =
      if k ∈ l.map Prod.fst then l.map Prod.fst else l.map Prod.fst ++ [k] := by
  induction l with
  | nil => simp [alUpdate]
  | cons p rest ih =>
    rw [alUpdate]
    by_cases hpk : p.1 == k
    · have hk : p.1 = k := eq_of_beq hpk
      rw [if_pos hpk]
      simp [hk]
    · have hk : ¬p.1 = k := fun h => hpk (beq_iff_eq.mpr h)
      rw [if_neg hpk]
      simp only [List.map_cons, ih]
      have hne : k ≠ p.1 := fun h => hk h.symm
      have hmem : (k ∈ p.1 :: rest.map Prod.fst) ↔ k ∈ rest.map Prod.fst := by
        rw [List.mem_cons]
        exact or_iff_right hne
      by_cases hk2 : k ∈ rest.map Prod.fst
      · rw [if_pos hk2, if_pos (hmem.mpr hk2)]
      · rw [if_neg hk2, if_neg (fun h => hk2 (hmem.mp h))]
        simp

theorem alUpdate_keys_nodup {K V : Type} [BEq K] [LawfulBEq K]
    {l : List (K × V)} (hn : (l.map Prod.fst).Nodup) (k : K) (f : V → V) (d : V) :
    ((alUpdate l k f d).map Prod.fst).Nodup := by
  rw [alUpdate_keys]
  by_cases hk : k ∈ l.map Prod.fst
  · rw [if_pos hk]; exact hn
  · rw [if_neg hk]; simp [List.nodup_append, hn, hk]

/-! ### Build invariants -/

theorem processKey_inv_shard {m k size blknum : Nat} {acc : BuildAcc} {key : String}
    (h : ∀ p ∈ acc.shard_postings, ∀ q ∈ p.2, ∀ bn ∈ q.2, bn / size = p.1) :
    ∀ p ∈ (processKey m k size blknum acc key).shard_postings,
      ∀ q ∈ p.2, ∀ bn ∈ q.2, bn / size = p.1 := by
  intro p hp q hq bn hbn
  simp only [processKey] at hp
  rcases alUpdate_mem _ _ _ _ p hp with hpin | ⟨v, rfl, hv⟩
  · exact h p hpin q hq bn hbn
  · rcases alUpdate_mem _ _ _ _ q hq with hqin | ⟨w, rfl, hw⟩
    · rcases hv with rfl | hvin
      · simp at hqin
      · exact h _ hvin q hqin bn hbn
    · rcases List.mem_append.mp hbn with hbn | hbn
      · rcases hw with rfl | hwin
        · simp at hbn
        · rcases hv with rfl | hvin
          · simp at hwin
          · exact h _ hvin _ hwin bn hbn
      · rw [List.mem_singleton.mp hbn]

theorem foldl_processKey_inv_shard {m k size blknum : Nat} (keys : List String) :
    ∀ acc : BuildAcc,
      (∀ p ∈ acc.shard_postings, ∀ q ∈ p.2, ∀ bn ∈ q.2, bn / size = p.1) →
      ∀ p ∈ (keys.foldl (processKey m k size blknum) acc).shard_postings,
        ∀ q ∈ p.2, ∀ bn ∈ q.2, bn / size = p.1 := by
  induction keys with
  | nil => exact fun acc h => h
  | cons s ss ih => exact fun acc h => ih _ (processKey_inv_shard h)

theorem processBlock_inv_shard {size m k : Nat} {acc : BuildAcc} {blk : Block}
    (h : ∀ p ∈ acc.shard_postings, ∀ q ∈ p.2, ∀ bn ∈ q.2, bn / size = p.1) :
    ∀ p ∈ (processBlock size m k acc blk).shard_postings,
      ∀ q ∈ p.2, ∀ bn ∈ q.2, bn / size = p.1 := by
  rw [processBlock]
  generalize hacc0 : ({ acc with shard_blooms := _ } : BuildAcc) = acc0
  have h0 : ∀ p ∈ acc0.shard_postings, ∀ q ∈ p.2, ∀ bn ∈ q.2, bn / size = p.1 := by
    rw [← hacc0]
    exact h
  clear hacc0 h
  induction blk.transactions generalizing acc0 with
  | nil => exact h0
  | cons tx txs ih =>
    exact ih _ (foldl_processKey_inv_shard (txKeys tx) acc0 h0)

theorem build_fold_inv_shard {size m k : Nat} (chain : List Block) :
    ∀ acc : BuildAcc,
      (∀ p ∈ acc.shard_postings, ∀ q ∈ p.2, ∀ bn ∈ q.2, bn / size = p.1) →
      ∀ p ∈ (chain.foldl (processBlock size m k) acc).shard_postings,
        ∀ q ∈ p.2, ∀ bn ∈ q.2, bn / size = p.1 := by
  induction chain with
  | nil => exact fun acc h => h
  | cons blk rest ih => exact fun acc h => ih _ (processBlock_inv_shard h)

theorem build_rows_spec (size m k : Nat) (chain : List Block) :
    ∀ r ∈ (build_index size m k chain).postings,
      ∃ blocks : List Nat, r.2.2 = compress_postings (sortedUnique blocks) ∧
        ∀ bn ∈ blocks, bn / size = r.2.1 := by
  intro r hr
  simp only [build_index] at hr
  rw [List.mem_flatten] at hr
  obtain ⟨l, hl, hrl⟩ := hr
  rw [List.mem_map] at hl
  obtain ⟨p, hp, rfl⟩ := hl
  rw [List.mem_map] at hrl
  obtain ⟨q, hq, rfl⟩ := hrl
  refine ⟨q.2, rfl, ?_⟩
  intro bn hbn
  exact build_fold_inv_shard chain ⟨[], []⟩ (by simp) p hp q hq bn hbn

theorem processKey_inv_nodup {m k size blknum : Nat} {acc : BuildAcc} {key : String}
    (h : (acc.shard_postings.map Prod.fst).Nodup) :
    ((processKey m k size blknum acc key).shard_postings.map Prod.fst).Nodup := by
  simp only [processKey]
  exact alUpdate_keys_nodup h _ _ _

theorem foldl_processKey_inv_nodup {m k size blknum : Nat} (keys : List String) :
    ∀ acc : BuildAcc, (acc.shard_postings.map Prod.fst).Nodup →
      (((keys.foldl (processKey m k size blknum) acc).shard_postings).map Prod.fst).Nodup := by
  induction keys with
  | nil => exact fun acc h => h
  | cons s ss ih => exact fun acc h => ih _ (processKey_inv_nodup h)

theorem processBlock_inv_nodup {size m k : Nat} {acc : BuildAcc} {blk : Block}
    (h : (acc.shard_postings.map Prod.fst).Nodup) :
    (((processBlock size m k acc blk).shard_postings).map Prod.fst).Nodup := by
  rw [processBlock]
  generalize hacc0 : ({ acc with shard_blooms := _ } : BuildAcc) = acc0
  have h0 : (acc0.shard_postings.map Prod.fst).Nodup := by
    rw [← hacc0]
    exact h
  clear hacc0 h
  induction blk.transactions generalizing acc0 with
  | nil => exact h0
  | cons tx txs ih =>
    exact ih _ (foldl_processKey_inv_nodup (txKeys tx) acc0 h0)

theorem build_fold_inv_nodup {size m k : Nat} (chain : List Block) :
    ∀ acc : BuildAcc, (acc.shard_postings.map Prod.fst).Nodup →
      (((chain.foldl (processBlock size m k) acc).shard_postings).map Prod.fst).Nodup := by
  induction chain with
  | nil => exact fun acc h => h
  | cons blk rest ih => exact fun acc h => ih _ (processBlock_inv_nodup h)

theorem build_shards_sids_nodup (size m k : Nat) (chain : List Block) :
    (((build_index size m k chain).shards).map (fun s => s.1)).Nodup := by
  simp only [build_index, List.map_map]
  exact build_fold_inv_nodup chain ⟨[], []⟩ (by simp)

theorem processKey_inv_keys {m k size blknum : Nat} {acc : BuildAcc} {key : String}
    {S : String → Prop} (h : ∀ p ∈ acc.shard_postings, ∀ q ∈ p.2, S q.1)
    (hkey : S key) :
    ∀ p ∈ (processKey m k size blknum acc key).shard_postings, ∀ q ∈ p.2, S q.1 := by
  intro p hp q hq
  simp only [processKey] at hp
  rcases alUpdate_mem _ _ _ _ p hp with hpin | ⟨v, rfl, hv⟩
  · exact h p hpin q hq
  · rcases alUpdate_mem _ _ _ _ q hq with hqin | ⟨w, rfl, _⟩
    · rcases hv with rfl | hvin
      · simp at hqin
      · exact h _ hvin q hqin
    · exact hkey

theorem foldl_processKey_inv_keys {m k size blknum : Nat} {S : String → Prop}
    (keys : List String) :
    ∀ acc : BuildAcc, (∀ p ∈ acc.shard_postings, ∀ q ∈ p.2, S q.1) →
      (∀ key ∈ keys, S key) →
      ∀ p ∈ ((keys.foldl (processKey m k size blknum) acc)).shard_postings,
        ∀ q ∈ p.2, S q.1 := by
  induction keys with
  | nil => exact fun acc h _ => h
  | cons s ss ih =>
    intro acc h hall
    exact ih _ (processKey_inv_keys h (hall s (List.mem_cons_self s ss)))
      (fun key hk => hall key (List.mem_cons_of_mem s hk))

theorem foldl_tx_inv_keys {m k size blknum : Nat} {S : String → Prop} (txs : List Tx) :
    ∀ acc : BuildAcc, (∀ p ∈ acc.shard_postings, ∀ q ∈ p.2, S q.1) →
      (∀ tx ∈ txs, ∀ key ∈ txKeys tx, S key) →
      ∀ p ∈ ((txs.foldl
          (fun a tx => (txKeys tx).foldl (processKey m k size blknum) a) acc)).shard_postings,
        ∀ q ∈ p.2, S q.1 := by
  induction txs with
  | nil => exact fun acc h _ => h
  | cons tx txs ih =>
    intro acc h hall
    exact ih _
      (foldl_processKey_inv_keys (txKeys tx) acc h (hall tx (List.mem_cons_self tx txs)))
      (fun t ht => hall t (List.mem_cons_of_mem tx ht))

theorem processBlock_inv_keys {size m k : Nat} {acc : BuildAcc} {blk : Block}
    {S : String → Prop} (h : ∀ p ∈ acc.shard_postings, ∀ q ∈ p.2, S q.1)
    (hblk : ∀ tx ∈ blk.transactions, ∀ key ∈ txKeys tx, S key) :
    ∀ p ∈ (processBlock size m k acc blk).shard_postings, ∀ q ∈ p.2, S q.1 := by
  rw [processBlock]
  exact foldl_tx_inv_keys blk.transactions _ h hblk

theorem build_fold_inv_keys {size m k : Nat} {S : String → Prop} (chain : List Block) :
    ∀ acc : BuildAcc, (∀ p ∈ acc.shard_postings, ∀ q ∈ p.2, S q.1) →
      (∀ blk ∈ chain, ∀ tx ∈ blk.transactions, ∀ key ∈ txKeys tx, S key) →
      ∀ p ∈ ((chain.foldl (processBlock size m k) acc)).shard_postings,
        ∀ q ∈ p.2, S q.1 := by
  induction chain with
  | nil => exact fun acc h _ => h
  | cons blk rest ih =>
    intro acc h hall
    exact ih _ (processBlock_inv_keys h (hall blk (List.mem_cons_self blk rest)))
      (fun b hb => hall b (List.mem_cons_of_mem blk hb))

theorem build_rows_keys (size m k : Nat) (chain : List Block) :
    ∀ r ∈ (build_index size m k chain).postings, r.1 ∈ chainKeys chain := by
  intro r hr
  simp only [build_index] at hr
  rw [List.mem_flatten] at hr
  obtain ⟨l, hl, hrl⟩ := hr
  rw [List.mem_map] at hl
  obtain ⟨p, hp, rfl⟩ := hl
  rw [List.mem_map] at hrl
  obtain ⟨q, hq, rfl⟩ := hrl
  refine build_fold_inv_keys chain ⟨[], []⟩ (by simp) ?_ p hp q hq
  intro blk hblk tx htx key hkey
  rw [chainKeys, List.mem_flatten]
  refine ⟨(blk.transactions.map txKeys).flatten, List.mem_map_of_mem _ hblk, ?_⟩
  rw [List.mem_flatten]
  exact ⟨txKeys tx, List.mem_map_of_mem _ htx, hkey⟩

/-! ### `postings_for` on a built index -/

theorem build_fetch_spec (size m k : Nat) (chain : List Block) (key : String) (sid : Nat) :
    ∃ l, fetchDecompressed (build_index size m k chain) key sid = .ok l ∧
      List.Sorted (· < ·) l ∧ ∀ bn ∈ l, bn / size = sid := by
  rw [fetchDecompressed]
  cases hg : getPostings (build_index size m k chain) key sid with
  | none => exact ⟨[], rfl, by simp, by simp⟩
  | some comp =>
    rw [getPostings] at hg
    cases hf : (build_index size m k chain).postings.find?
        (fun r => r.1 == key && r.2.1 == sid) with
    | none => rw [hf] at hg; simp at hg
    | some r =>
      rw [hf] at hg
      have hcomp : r.2.2 = comp := by simpa using hg
      have hrmem : r ∈ (build_index size m k chain).postings :=
        List.mem_of_find?_eq_some hf
      have hpred := List.find?_some hf
      simp only [Bool.and_eq_true] at hpred
      have hsid : r.2.1 = sid := eq_of_beq hpred.2
      obtain ⟨blocks, hbytes, hblocks⟩ := build_rows_spec size m k chain r hrmem
      have hsorted := sortedUnique_sorted blocks
      have hdec : decompress_postings r.2.2 = .ok (sortedUnique blocks) := by
        rw [hbytes]
        exact decompress_compress_of_sorted hsorted
      refine ⟨sortedUnique blocks, ?_, hsorted, ?_⟩
      · show decompress_postings comp = _
        rw [← hcomp]
        exact hdec
      intro bn hbn
      rw [← hsid]
      exact hblocks bn ((sortedUnique_mem blocks bn).mp hbn)

theorem candidateShards_nodup_of_build (size m k m' k' : Nat) (chain : List Block)
    (key : String) :
    (candidateShards (build_index size m k chain) m' k' key).Nodup := by
  rw [candidateShards]
  have h1 : (((build_index size m k chain).shards).map (fun s => s.1)).Nodup :=
    build_shards_sids_nodup size m k chain
  exact h1.sublist ((List.filter_sublist _).map _)

theorem postings_for_build_sorted (size m k : Nat) (chain : List Block) (key : String) :
    ∃ l, postings_for (build_index size m k chain) m k key = .ok l ∧
      List.Sorted (· < ·) l := by
  rw [postings_for_characterization]
  have hallok : (candidateShards (build_index size m k chain) m k key).all
      (fun sid => (fetchDecompressed (build_index size m k chain) key sid).isOk) = true := by
    apply List.all_eq_true.mpr
    intro sid _
    obtain ⟨l, hl, _, _⟩ := build_fetch_spec size m k chain key sid
    rw [hl]
    rfl
  rw [if_pos hallok]
  refine ⟨_, rfl, ?_⟩
  apply sorted_lt_of_sorted_le_nodup (List.sorted_insertionSort _ _)
  apply ((List.perm_insertionSort _ _).nodup_iff).mpr
  rw [List.nodup_flatten]
  constructor
  · intro l hl
    rw [List.mem_map] at hl
    obtain ⟨sid, _, rfl⟩ := hl
    obtain ⟨l', hl', hs', _⟩ := build_fetch_spec size m k chain key sid
    rw [fetchList_eq_of_ok hl']
    exact hs'.imp (fun h => ne_of_lt h)
  · rw [List.pairwise_map]
    have hnd : (candidateShards (build_index size m k chain) m k key).Nodup :=
      candidateShards_nodup_of_build size m k m k chain key
    refine hnd.imp ?_
    intro s1 s2 hne x hx1 hx2
    obtain ⟨l1, hl1, _, hpure1⟩ := build_fetch_spec size m k chain key s1
    obtain ⟨l2, hl2, _, hpure2⟩ := build_fetch_spec size m k chain key s2
    rw [fetchList_eq_of_ok hl1] at hx1
    rw [fetchList_eq_of_ok hl2] at hx2
    exact hne ((hpure1 x hx1).symm.trans (hpure2 x hx2))

theorem postings_for_missing_key (size m k : Nat) (chain : List Block) (key : String)
    (h : key ∉ chainKeys chain) :
    postings_for (build_index size m k chain) m k key = .ok [] := by
  have hget : ∀ sid, getPostings (build_index size m k chain) key sid = none := by
    intro sid
    rw [getPostings, List.find?_eq_none.mpr]
    · rfl
    · intro r hr hpred
      simp only [Bool.and_eq_true] at hpred
      have h1 : r.1 = key := eq_of_beq hpred.1
      exact h (h1 ▸ build_rows_keys size m k chain r hr)
  have hfetch : ∀ sid, fetchDecompressed (build_index size m k chain) key sid = .ok [] := by
    intro sid
    rw [fetchDecompressed, hget]
  rw [postings_for_characterization]
  have hallok : (candidateShards (build_index size m k chain) m k key).all
      (fun sid => (fetchDecompressed (build_index size m k chain) key sid).isOk) = true := by
    apply List.all_eq_true.mpr
    intro sid _
    rw [hfetch]
    rfl
  rw [if_pos hallok]
  have hmap : (candidateShards (build_index size m k chain) m k key).map
      (fetchList (build_index size m k chain) key) =
      (candidateShards (build_index size m k chain) m k key).map (fun _ => []) :=
    List.map_congr_left (fun sid _ => fetchList_eq_of_ok (hfetch sid))
  rw [hmap]
  simp

/-! ### Shard-order independence of `postings_for` -/

theorem postings_for_shards_perm (sh sh' : List (Nat × Nat × Nat × List Nat))
    (po : List (String × Nat × List Nat)) (m k : Nat) (key : String)
    (hperm : sh.Perm sh') :
    postings_for ⟨sh, po⟩ m k key = postings_for ⟨sh', po⟩ m k key := by
  have hcand : (candidateShards ⟨sh, po⟩ m k key).Perm
      (candidateShards ⟨sh', po⟩ m k key) := (hperm.filter _).map _
  rw [postings_for_characterization, postings_for_characterization]
  have hall : (candidateShards ⟨sh, po⟩ m k key).all
      (fun sid => (fetchDecompressed ⟨sh, po⟩ key sid).isOk) =
      (candidateShards ⟨sh', po⟩ m k key).all
        (fun sid => (fetchDecompressed ⟨sh', po⟩ key sid).isOk) :=
    perm_all_congr hcand _
  by_cases hc : (candidateShards ⟨sh', po⟩ m k key).all
      (fun sid => (fetchDecompressed ⟨sh', po⟩ key sid).isOk) = true
  · rw [if_pos (hall.trans hc), if_pos hc]
    congr 1
    exact insertionSort_eq_of_perm (hcand.map _).flatten
  · rw [if_neg (fun hb => hc (hall.symm.trans hb)), if_neg hc]

/-! ### `boolean_query` combination behaviour -/

theorem any_of_loop_eq (store : IndexStore) (m k : Nat) (any_of : List String) :
    ∀ (als : List (List Nat)) (acc : List Nat),
      any_of.mapM (postings_for store m k) = .ok als →
      (any_of.foldlM
        (fun acc key => do pure (merge_sorted acc (← postings_for store m k key)))
        acc : Except String (List Nat)) = .ok (als.foldl merge_sorted acc) := by
  induction any_of with
  | nil =>
    intro als acc h
    have hals : als = [] := by
      have h2 : (Except.ok [] : Except String (List (List Nat))) = .ok als := h
      exact (Except.ok.inj h2).symm
    subst hals
    rfl
  | cons key rest ih =>
    intro als acc h
    rw [List.mapM_cons] at h
    cases hp : postings_for store m k key with
    | error e =>
      rw [hp] at h
      have h2 : (Except.error e : Except String (List (List Nat))) = .ok als := h
      exact absurd h2 (by simp)
    | ok l =>
      rw [hp] at h
      cases hrest : rest.mapM (postings_for store m k) with
      | error e =>
        rw [hrest] at h
        have h2 : (Except.error e : Except String (List (List Nat))) = .ok als := h
        exact absurd h2 (by simp)
      | ok ls =>
        rw [hrest] at h
        have hals : als = l :: ls := by
          have h2 : (Except.ok (l :: ls) : Except String (List (List Nat))) = .ok als := h
          exact (Except.ok.inj h2).symm
        subst hals
        rw [List.foldlM_cons]
        have hstep : (do
            pure (merge_sorted acc (← postings_for store m k key)) :
              Except String (List Nat)) = .ok (merge_sorted acc l) := by
          rw [hp]
          rfl
        rw [hstep]
        show (List.foldlM _ (merge_sorted acc l) rest : Except String (List Nat)) = _
        rw [ih ls (merge_sorted acc l) hrest]
        rfl

theorem boolean_query_spec (store : IndexStore) (m k : Nat)
    (must_have any_of : List String) (mls als : List (List Nat))
    (hm : must_have.mapM (postings_for store m k) = .ok mls)
    (ha : any_of.mapM (postings_for store m k) = .ok als) :
    boolean_query store m k must_have any_of = .ok (combineQuery mls als) := by
  rw [boolean_query, hm]
  show ((any_of.foldlM _ ([] : List Nat) : Except String (List Nat)) >>= _) = _
  rw [any_of_loop_eq store m k any_of als [] ha]
  cases mls with
  | nil =>
    show (if (als.foldl merge_sorted []).isEmpty then pure []
      else pure (als.foldl merge_sorted []) : Except String (List Nat)) = _
    rw [show combineQuery [] als = als.foldl merge_sorted [] from rfl]
    by_cases he : (als.foldl merge_sorted []).isEmpty = true
    · have h0 : als.foldl merge_sorted [] = [] := List.isEmpty_iff.mp he
      rw [h0]
      rfl
    · rw [if_neg he]
      rfl
  | cons l ls =>
    show (if (als.foldl merge_sorted []).isEmpty then pure (ls.foldl intersect_sorted l)
      else pure (intersect_sorted (ls.foldl intersect_sorted l) (als.foldl merge_sorted [])) :
        Except String (List Nat)) = _
    rw [show combineQuery (l :: ls) als =
      (if (als.foldl merge_sorted []).isEmpty then ls.foldl intersect_sorted l
        else intersect_sorted (ls.foldl intersect_sorted l) (als.foldl merge_sorted []))
      from rfl]
    by_cases he : (als.foldl merge_sorted []).isEmpty = true
    · rw [if_pos he, if_pos he]
      rfl
    · rw [if_neg he, if_neg he]
      rfl

/-! ### Claims -/

/-- C1 (counterexample): on `cexStore`, with `must_have = ["a"]` and
`any_of = ["b"]` both non-empty, the required intersection is `[0]` and
the optional union is empty; the claim demands the sorted intersection
of the two, which is `[]`, but `boolean_query` returns `required`
unchanged, i.e. `[0]`. -/
theorem claim_C1_counterexample :
    postings_for cexStore 8192 0 "a" = .ok [0] ∧
    postings_for cexStore 8192 0 "b" = .ok [] ∧
    merge_sorted [] [] = [] ∧
    intersect_sorted [0] (merge_sorted [] []) = [] ∧
    boolean_query cexStore 8192 0 ["a"] ["b"] = .ok [0] ∧
    boolean_query cexStore 8192 0 ["a"] ["b"] ≠
      .ok (intersect_sorted [0] (merge_sorted [] [])) := by
  have hm : merge_sorted [] [] = [] := by
    simp [merge_sorted, merge_core, dedup_adjacent]
  have hi : intersect_sorted [0] (merge_sorted [] []) = [] := by
    rw [hm]
    simp [intersect_sorted]
  have hc : combineQuery [[0]] [[]] = [0] := by
    simp [combineQuery, merge_sorted, merge_core, dedup_adjacent]
  have hq : boolean_query cexStore 8192 0 ["a"] ["b"] = .ok [0] :=
    (boolean_query_spec cexStore 8192 0 ["a"] ["b"] [[0]] [[]] rfl rfl).trans
      (by rw [hc])
  refine ⟨rfl, rfl, hm, hi, hq, ?_⟩
  rw [hq, hi]
  simp

/-- C1 (amended): `boolean_query` combines the per-key postings lists
as follows: with `must_have` empty the result is the duplicate-free
union of the `any_of` postings (empty when both constraint sets are
empty); with `must_have` non-empty the result is the left-to-right
two-pointer intersection of its postings, intersected with the
`any_of` union only when that union is itself non-empty (an empty
union leaves the required intersection unchanged). -/
theorem claim_C1 (store : IndexStore) (m k : Nat) (must_have any_of : List String)
    (mls als : List (List Nat))
    (hm : must_have.mapM (postings_for store m k) = .ok mls)
    (ha : any_of.mapM (postings_for store m k) = .ok als) :
    boolean_query store m k must_have any_of = .ok (combineQuery mls als) :=
  boolean_query_spec store m k must_have any_of mls als hm ha

theorem claim_C1_witness :
    (["a"].mapM (postings_for cexStore 8192 0) = .ok [[0]]) ∧
    (["b"].mapM (postings_for cexStore 8192 0) = .ok [[]]) ∧
    boolean_query cexStore 8192 0 ["a"] ["b"] = .ok (combineQuery [[0]] [[]]) :=
  ⟨rfl, rfl, claim_C1 cexStore 8192 0 ["a"] ["b"] [[0]] [[]] rfl rfl⟩

/-- C2: on every index produced by `build_index`, `postings_for`
succeeds and returns a strictly ascending (hence duplicate-free) list
of block numbers. -/
theorem claim_C2 (size m k : Nat) (chain : List Block) (key : String) :
    ∃ l, postings_for (build_index size m k chain) m k key = .ok l ∧
      List.Sorted (· < ·) l :=
  postings_for_build_sorted size m k chain key

/-- C3: decoding the varint encoding of any `n` yields `[n]`, and
decoding the concatenation of the encodings of any sequence reproduces
the sequence in order. -/
theorem claim_C3 :
    (∀ n : Nat, varint_decode_stream (varint_encode n) = .ok [n]) ∧
    (∀ ns : List Nat, varint_decode_stream ((ns.map varint_encode).flatten) = .ok ns) := by
  constructor
  · intro n
    have h := varint_stream_encode_append n []
    rw [List.append_nil] at h
    rw [h]
    rfl
  · exact varint_stream_flatten

/-- C4: for every strictly sorted list the delta-varint compression
round-trips, the empty list compresses to the empty byte string, and
the empty byte string decompresses to the empty list. -/
theorem claim_C4 :
    (∀ L : List Nat, List.Sorted (· < ·) L →
      decompress_postings (compress_postings L) = .ok L) ∧
    compress_postings [] = [] ∧ decompress_postings [] = .ok [] :=
  ⟨fun _ h => decompress_compress_of_sorted h, rfl, rfl⟩

theorem claim_C4_witness :
    List.Sorted (· < ·) [0, 3, 7] ∧
    decompress_postings (compress_postings [0, 3, 7]) = .ok [0, 3, 7] :=
  ⟨by decide, claim_C4.1 [0, 3, 7] (by decide)⟩

/-- C5: a bloom filter never reports a false negative: after
`add(key)` on a fresh filter, with arbitrary other adds before and
after, the membership test for `key` returns true. -/
theorem claim_C5 (m k : Nat) (pre post : List String) (key : String) :
    bloomContains m k ((pre ++ key :: post).foldl (bloomAdd m k) 0) key = true :=
  bloomContains_after_adds m k pre post key 0

/-- C6: on sorted duplicate-free inputs, `intersect_sorted` returns
the strictly sorted list of the common elements and `merge_sorted` the
strictly sorted duplicate-free list of the union. -/
theorem claim_C6 (A B : List Nat) (hA : List.Sorted (· < ·) A)
    (hB : List.Sorted (· < ·) B) :
    (List.Sorted (· < ·) (intersect_sorted A B) ∧
      ∀ x, x ∈ intersect_sorted A B ↔ x ∈ A ∧ x ∈ B) ∧
    (List.Sorted (· < ·) (merge_sorted A B) ∧
      ∀ x, x ∈ merge_sorted A B ↔ x ∈ A ∨ x ∈ B) :=
  ⟨intersect_sorted_spec A B hA hB, merge_sorted_spec hA hB⟩

theorem claim_C6_witness :
    List.Sorted (· < ·) [1, 3] ∧ List.Sorted (· < ·) [2, 3] ∧
    List.Sorted (· < ·) (intersect_sorted [1, 3] [2, 3]) ∧
    (2 ∈ merge_sorted [1, 3] [2, 3] ↔ 2 ∈ [1, 3] ∨ 2 ∈ [2, 3]) :=
  ⟨by decide, by decide, (claim_C6 [1, 3] [2, 3] (by decide) (by decide)).1.1,
    (claim_C6 [1, 3] [2, 3] (by decide) (by decide)).2.2 2⟩

/-- C7: a buffer whose final byte still has the continuation bit set is
rejected: both the varint stream decoder and `decompress_postings`
fail with the explicit index-out-of-range error (no silent truncation,
no divergence). -/
theorem claim_C7 (bs : List Nat) (c : Nat) (hc : bs.getLast? = some c)
    (hcont : c &&& 0x80 ≠ 0) :
    varint_decode_stream bs = .error "index out of range" ∧
    decompress_postings bs = .error "index out of range" := by
  have h1 := varint_stream_error_of_last_cont hc hcont
  refine ⟨h1, ?_⟩
  rw [decompress_postings, h1]
  rfl

theorem claim_C7_witness :
    ([0x03, 0x80] : List Nat).getLast? = some 0x80 ∧ ((0x80 : Nat) &&& 0x80 ≠ 0) ∧
    varint_decode_stream [0x03, 0x80] = .error "index out of range" :=
  ⟨by decide, by decide, (claim_C7 [0x03, 0x80] 0x80 (by decide) (by decide)).1⟩

/-- C8: a key that never occurs in the indexed batch yields the empty
postings list, with no error, regardless of bloom false positives. -/
theorem claim_C8 (size m k : Nat) (chain : List Block) (key : String)
    (h : key ∉ chainKeys chain) :
    postings_for (build_index size m k chain) m k key = .ok [] :=
  postings_for_missing_key size m k chain key h

theorem claim_C8_witness :
    ("z" ∉ chainKeys [⟨0, [⟨"a", "b", ["t"]⟩]⟩]) ∧
    postings_for (build_index 100 8192 6 [⟨0, [⟨"a", "b", ["t"]⟩]⟩]) 8192 6 "z" =
      .ok [] :=
  ⟨by decide, claim_C8 100 8192 6 [⟨0, [⟨"a", "b", ["t"]⟩]⟩] "z" (by decide)⟩

/-- C9: `varint_encode` terminates on every non-negative integer
(`n + 1` loop iterations suffice for input `n`, each iteration divides
the remaining value by `2^7`), it diverges on the negative input `-1`
(no fuel suffices), and the deltas `compress_postings` feeds it are
non-negative whenever the input list is ascending with non-negative
head. -/
theorem claim_C9 :
    (∀ fuel n : Nat, n < fuel →
      varint_encode_fuel fuel (n : Int) = some (varint_encode n)) ∧
    (∀ fuel : Nat, varint_encode_fuel fuel (-1) = none) ∧
    (∀ L : List Int, List.Chain (· ≤ ·) 0 L → ∀ d ∈ compress_deltas L, 0 ≤ d) :=
  ⟨varint_encode_fuel_nat, varint_encode_fuel_neg_one,
    fun L h => compress_deltasFrom_nonneg L 0 h⟩

theorem claim_C9_witness :
    (2 < 3 ∧ varint_encode_fuel 3 ((2 : Nat) : Int) = some (varint_encode 2)) ∧
    (List.Chain (· ≤ ·) 0 [1, 5] ∧ ∀ d ∈ compress_deltas [1, 5], 0 ≤ d) :=
  ⟨⟨by decide, claim_C9.1 3 2 (by decide)⟩,
    ⟨List.Chain.cons (by norm_num) (List.Chain.cons (by norm_num) List.Chain.nil),
      claim_C9.2.2 [1, 5]
        (List.Chain.cons (by norm_num) (List.Chain.cons (by norm_num) List.Chain.nil))⟩⟩

/-- C10: `postings_for` is invariant under any permutation of the
persisted shard sequence: the per-shard results are concatenated and
then sorted, so shard enumeration order does not matter. -/
theorem claim_C10 (sh sh' : List (Nat × Nat × Nat × List Nat))
    (po : List (String × Nat × List Nat)) (m k : Nat) (key : String)
    (hperm : sh.Perm sh') :
    postings_for ⟨sh, po⟩ m k key = postings_for ⟨sh', po⟩ m k key :=
  postings_for_shards_perm sh sh' po m k key hperm

theorem claim_C10_witness :
    ([(0, 0, 99, ([] : List Nat)), (1, 100, 199, [])]).Perm
      [(1, 100, 199, ([] : List Nat)), (0, 0, 99, [])] ∧
    postings_for ⟨[(0, 0, 99, []), (1, 100, 199, [])], []⟩ 8192 6 "x" =
      postings_for ⟨[(1, 100, 199, []), (0, 0, 99, [])], []⟩ 8192 6 "x" :=
  ⟨List.Perm.swap _ _ _,
    claim_C10 [(0, 0, 99, []), (1, 100, 199, [])] [(1, 100, 199, []), (0, 0, 99, [])]
      [] 8192 6 "x" (List.Perm.swap _ _ _)⟩
